import Mathlib

/-!
Verification of the Legion-SNAP sweep/outer-iteration core against its
specification.  The C++ kernels of src/sweep.cc, src/outer.cc and src/mms.cc are
shallowly embedded here: IEEE doubles become exact rationals (with the two
infinities, where the code manipulates them, modelled by WithBot/WithTop),
angle- and cell-indexed buffers become total functions guarded by the loop
bounds of the source, and the two source loops without a structural bound (the
angular-source moment loop and the negative-flux fixup loop) become fuel-indexed
recursions returning an Option.
-/

namespace SnapSpec

/-- Tolerance constant tolr = 1.0e-12 shared by the sweep fixup, the outer
convergence test and the MMS comparison. -/
def tolr : ℚ := 1 / 1000000000000

/-! ### C1: the angular-source moment loop of MiniKBATask::cpu_implementation -/

/-- Body of one iteration of the moment loop in the cpu sweep kernel, for moment
index l: every angle a below A receives ec (corner * nm * A + l * A + a) times
qtot l. -/
def momentBody (A nm corner : ℕ) (ec qtot : ℕ → ℚ) (l : ℕ) (psi : ℕ → ℚ) :
    ℕ → ℚ :=
  fun a => if a < A then psi a + ec (corner * nm * A + l * A + a) * qtot l
    else psi a

/-- Fuel-indexed model of the cpu sweep angular-source moment loop.  The source
is a for loop starting at l = 1 whose guard is literally the condition
1 < num_moments (not l < num_moments), tested before every iteration; none means
the fuel was exhausted before the guard ever failed. -/
def cpuMomentLoop (A nm corner : ℕ) (ec qtot : ℕ → ℚ) :
    ℕ → ℕ → (ℕ → ℚ) → Option (ℕ → ℚ)
  | 0, _, psi => if 1 < nm then none else some psi
  | fuel + 1, l, psi =>
    if 1 < nm then
      cpuMomentLoop A nm corner ec qtot fuel (l + 1)
        (momentBody A nm corner ec qtot l psi)
    else some psi

/-! ### C6: the MMS cell-boundary coordinate builds -/

/-- The x-axis cell-boundary array of MMSInitFlux and MMSInitSource: entry 0 is
lo * dx and every later entry adds dx. -/
def mmsIb (lo dx : ℚ) : ℕ → ℚ
  | 0 => lo * dx
  | i + 1 => mmsIb lo dx i + dx

/-- The y-axis cell-boundary array as written in the source: entry 0 is lo * dy
but every later entry adds dx rather than dy. -/
def mmsJb (lo dy dx : ℚ) : ℕ → ℚ
  | 0 => lo * dy
  | j + 1 => mmsJb lo dy dx j + dx

/-- The z-axis cell-boundary array as written in the source: entry 0 is lo * dz
but every later entry adds dx rather than dz. -/
def mmsKb (lo dz dx : ℚ) : ℕ → ℚ
  | 0 => lo * dz
  | k + 1 => mmsKb lo dz dx k + dx

/-! ### C10: the MMS TRIPLE reduction -/

/-- Extended rationals standing for IEEE doubles together with the two
infinities (no NaN): bottom plays minus infinity and top plays plus
infinity. -/
abbrev ExtQ : Type := WithBot (WithTop ℚ)

/-- A MomentTriple of doubles as used by the MMS reduction. -/
structure Triple where
  m0 : ExtQ
  m1 : ExtQ
  m2 : ExtQ
deriving DecidableEq

/-- MMSReduction identity element (-inf, +inf, 0). -/
def MMSReduction.identity : Triple := ⟨⊥, ⊤, 0⟩

/-- MMSReduction fold: keep the larger first component, the smaller second
component, and add the third components. -/
def MMSReduction.fold (rhs1 rhs2 : Triple) : Triple :=
  ⟨if rhs2.m0 > rhs1.m0 then rhs2.m0 else rhs1.m0,
   if rhs2.m1 < rhs1.m1 then rhs2.m1 else rhs1.m1,
   rhs1.m2 + rhs2.m2⟩

/-- MMSReduction apply: the same componentwise max, min, sum combination as
fold. -/
def MMSReduction.apply (lhs rhs : Triple) : Triple :=
  ⟨if rhs.m0 > lhs.m0 then rhs.m0 else lhs.m0,
   if rhs.m1 < lhs.m1 then rhs.m1 else lhs.m1,
   lhs.m2 + rhs.m2⟩

/-! ### C3: TestOuterConvergence::cpu_implementation -/

/-- Cell coordinates of a rectangular subgrid. -/
abbrev Cell3 : Type := ℕ × ℕ × ℕ

/-- Per-cell relative difference of the outer convergence test: df starts as 1,
and when the magnitude of the previous flux is below tolr the previous flux is
replaced by 1 with the subtracted constant set to 0; the result is the absolute
value of flux over the adjusted previous flux minus that constant.  The
comparison of df against minus infinity in the source can never hold for a real
df and is dropped. -/
def outerDf (flux0 flux0po : ℚ) : ℚ :=
  let d : ℚ := if |flux0po| < tolr then 0 else 1
  let fp : ℚ := if |flux0po| < tolr then 1 else flux0po
  |flux0 / fp - d|

/-- TestOuterConvergence::cpu_implementation over an explicit cell list: false
when the inner iteration did not converge, otherwise true exactly when no group
and cell has df above epsi = 100 * convergence_eps. -/
def testOuterConvergence (inner : Bool) (eps : ℚ) (G : ℕ) (cells : List Cell3)
    (flux0 flux0po : ℕ → Cell3 → ℚ) : Bool :=
  if !inner then false
  else
    (List.range G).all fun g => cells.all fun p =>
      !(decide (outerDf (flux0 g p) (flux0po g p) > 100 * eps))

/-- Per-cell difference as the claim words it: a previous flux under the
tolerance yields df = 0. -/
def outerDfClaimed (flux0 flux0po : ℚ) : ℚ :=
  if |flux0po| < tolr then 0 else |flux0 / flux0po - 1|

/-- The convergence test as the claim words it, with underflowing cells never
failing the pointwise test. -/
def testOuterConvergenceClaimed (inner : Bool) (eps : ℚ) (G : ℕ)
    (cells : List Cell3) (flux0 flux0po : ℕ → Cell3 → ℚ) : Bool :=
  inner &&
    ((List.range G).all fun g => cells.all fun p =>
      decide (outerDfClaimed (flux0 g p) (flux0po g p) ≤ 100 * eps))

/-! ### C4: MMSCompare::cpu_implementation -/

/-- Per-cell error of the MMS comparison: when the reference flux is below tolr
it is replaced by 1 and the subtracted constant becomes 0; the error is the
absolute value of flux over the adjusted reference minus that constant. -/
def mmsDf (flux ref : ℚ) : ℚ :=
  let d : ℚ := if ref < tolr then 0 else 1
  let r : ℚ := if ref < tolr then 1 else ref
  |flux / r - d|

/-- Accumulator of MMSCompare: running max from minus infinity, running min from
plus infinity, and the running sum. -/
structure CompareAcc where
  cmax : WithBot ℚ
  cmin : WithTop ℚ
  csum : ℚ
deriving DecidableEq

/-- One accumulation step of MMSCompare for a single cell error df. -/
def mmsCompareStep (acc : CompareAcc) (df : ℚ) : CompareAcc :=
  ⟨if (df : WithBot ℚ) > acc.cmax then (df : WithBot ℚ) else acc.cmax,
   if (df : WithTop ℚ) < acc.cmin then (df : WithTop ℚ) else acc.cmin,
   acc.csum + df⟩

/-- MMSCompare::cpu_implementation over groups and a cell list: fold every cell
error into the (max, min, sum) accumulator starting from (-inf, +inf, 0). -/
def mmsCompare (G : ℕ) (cells : List Cell3) (flux ref : ℕ → Cell3 → ℚ) :
    CompareAcc :=
  (List.range G).foldl
    (fun acc g =>
      cells.foldl (fun acc2 p => mmsCompareStep acc2 (mmsDf (flux g p) (ref g p)))
        acc)
    ⟨⊥, ⊤, 0⟩

/-! ### C7 and C8: the negative-flux fixup loop of the cpu sweep kernel -/

/-- Inputs of one fixed-up cell of the cpu sweep kernel that stay constant
during the fixup loop: the angular source psi, the incoming face and time
fluxes, the quadrature cosines, the geometry factors, the time coefficient and
the total cross section. -/
structure FixupCfg where
  A : ℕ
  psi : ℕ → ℚ
  psii : ℕ → ℚ
  psij : ℕ → ℚ
  psik : ℕ → ℚ
  tfi : ℕ → ℚ
  mu : ℕ → ℚ
  eta : ℕ → ℚ
  xi : ℕ → ℚ
  hi : ℚ
  hj : ℚ
  hk : ℚ
  vdelt : ℚ
  txs : ℚ

/-- Mutable state of the fixup loop: the cell-centred solution, the four hv
flag vectors and the negative count of the previous pass. -/
structure FixupState where
  pc : ℕ → ℚ
  hvx : ℕ → ℚ
  hvy : ℕ → ℚ
  hvz : ℕ → ℚ
  hvt : ℕ → ℚ
  old : ℕ

/-- Tentative outgoing x flux of one pass: twice pc minus the incoming value. -/
def fxX (c : FixupCfg) (pc : ℕ → ℚ) (a : ℕ) : ℚ := 2 * pc a - c.psii a

/-- Tentative outgoing y flux of one pass. -/
def fxY (c : FixupCfg) (pc : ℕ → ℚ) (a : ℕ) : ℚ := 2 * pc a - c.psij a

/-- Tentative outgoing z flux of one pass. -/
def fxZ (c : FixupCfg) (pc : ℕ → ℚ) (a : ℕ) : ℚ := 2 * pc a - c.psik a

/-- Tentative outgoing time flux of one pass. -/
def fxT (c : FixupCfg) (pc : ℕ → ℚ) (a : ℕ) : ℚ := 2 * pc a - c.tfi a

/-- One scan of an hv flag vector: angles below A whose tentative flux went
negative have their flag forced to 0; all other entries are kept. -/
def hvStep (A : ℕ) (fx : ℕ → ℚ) (hv : ℕ → ℚ) : ℕ → ℚ :=
  fun a => if a < A ∧ fx a < 0 then 0 else hv a

/-- Number of negative entries of one tentative flux vector over the angles. -/
def negCountOf (A : ℕ) (fx : ℕ → ℚ) : ℕ :=
  ((Finset.range A).filter fun a => fx a < 0).card

/-- Total number of negative tentative fluxes counted in one pass: the three
face directions always, and the time direction only when vdelt is nonzero. -/
def negCount (c : FixupCfg) (pc : ℕ → ℚ) : ℕ :=
  negCountOf c.A (fxX c pc) + negCountOf c.A (fxY c pc) +
    negCountOf c.A (fxZ c pc) +
    (if c.vdelt ≠ 0 then negCountOf c.A (fxT c pc) else 0)

/-- Recomputed cell-centred value of the fixup loop for one angle, from the hv
flags: the half-weighted numerator, then the denominator which is zeroed when
the numerator is nonpositive, and the small-denominator clamp against tolr.
The time term appears only when vdelt is nonzero, matching the two loop
variants of the source. -/
def recompVal (c : FixupCfg) (hvx hvy hvz hvt : ℕ → ℚ) (a : ℕ) : ℚ :=
  let p := c.psi a + (1/2) *
    (c.psii a * c.mu a * c.hi * (1 + hvx a) +
     c.psij a * c.eta a * c.hj * (1 + hvy a) +
     c.psik a * c.xi a * c.hk * (1 + hvz a) +
     (if c.vdelt ≠ 0 then c.tfi a * c.vdelt * (1 + hvt a) else 0))
  let den := if p ≤ 0 then 0 else
    c.txs + c.mu a * c.hi * hvx a + c.eta a * c.hj * hvy a +
      c.xi a * c.hk * hvz a + (if c.vdelt ≠ 0 then c.vdelt * hvt a else 0)
  if den < tolr then 0 else p / den

/-- State after the counting phase of one pass: every hv vector is rescanned
from the current pc; the time flags move only when vdelt is nonzero. -/
def passHv (c : FixupCfg) (st : FixupState) : FixupState :=
  { st with
    hvx := hvStep c.A (fxX c st.pc) st.hvx
    hvy := hvStep c.A (fxY c st.pc) st.hvy
    hvz := hvStep c.A (fxZ c st.pc) st.hvz
    hvt := if c.vdelt ≠ 0 then hvStep c.A (fxT c st.pc) st.hvt else st.hvt }

/-- State passed to the next pass when the loop does not exit: hv flags
rescanned, pc recomputed on the angles below A, and the fresh negative count
recorded as the previous count. -/
def passNext (c : FixupCfg) (st : FixupState) : FixupState :=
  let st1 := passHv c st
  { st1 with
    pc := fun a => if a < c.A then
        recompVal c st1.hvx st1.hvy st1.hvz st1.hvt a
      else st.pc a
    old := negCount c st.pc }

/-- Fuel-indexed fixup loop of the cpu sweep kernel: each pass recomputes the
tentative fluxes and hv flags from the current pc and exits, keeping pc, when
the number of negative fluxes matches the previous pass; otherwise it
recomputes pc from the new flags and repeats. -/
def fixupLoop (c : FixupCfg) : ℕ → FixupState → Option FixupState
  | 0, _ => none
  | fuel + 1, st =>
    if negCount c st.pc = st.old then some (passHv c st)
    else fixupLoop c fuel (passNext c st)

/-- Initial fixup state: the pc computed before the loop, all hv flags 1 and a
previous count of 0. -/
def initFixup (pc0 : ℕ → ℚ) : FixupState :=
  ⟨pc0, fun _ => 1, fun _ => 1, fun _ => 1, fun _ => 1, 0⟩

/-- Outgoing x flux written after the loop: the tentative flux times its hv
flag. -/
def psiiOut (c : FixupCfg) (st : FixupState) (a : ℕ) : ℚ :=
  fxX c st.pc a * st.hvx a

/-- Outgoing y flux written after the loop. -/
def psijOut (c : FixupCfg) (st : FixupState) (a : ℕ) : ℚ :=
  fxY c st.pc a * st.hvy a

/-- Outgoing z flux written after the loop. -/
def psikOut (c : FixupCfg) (st : FixupState) (a : ℕ) : ℚ :=
  fxZ c st.pc a * st.hvz a

/-- Outgoing time flux written after the loop when vdelt is nonzero. -/
def tfoOut (c : FixupCfg) (st : FixupState) (a : ℕ) : ℚ :=
  fxT c st.pc a * st.hvt a

/-- Number of nonzero entries of one hv flag vector below A. -/
def hvWeight (A : ℕ) (hv : ℕ → ℚ) : ℕ :=
  ((Finset.range A).filter fun a => hv a ≠ 0).card

/-- Total number of nonzero hv flags of a state. -/
def hvTotal (c : FixupCfg) (st : FixupState) : ℕ :=
  hvWeight c.A st.hvx + hvWeight c.A st.hvy + hvWeight c.A st.hvz +
    hvWeight c.A st.hvt

/-- A state whose pc was produced by the recompute phase from its own hv
flags, on every angle below A. -/
def Recomputed (c : FixupCfg) (st : FixupState) : Prop :=
  ∀ a < c.A, st.pc a = recompVal c st.hvx st.hvy st.hvz st.hvt a

/-! ### C5: CalcOuterSource::cpu_implementation -/

/-- Subtraction-based gcd of outer.cc, fuel-indexed: the source recurses,
subtracting the smaller argument from the larger, until the two are equal. -/
def gcdSnap : ℕ → ℕ → ℕ → Option ℕ
  | 0, _, _ => none
  | fuel + 1, a, b =>
    if a < b then gcdSnap fuel a (b - a)
    else if b < a then gcdSnap fuel (a - b) b
    else some a

/-- Inputs of the outer source build: group count, chunk extents, the fixed
source qi0, the scalar flux, the material map and the scattering table slgg
indexed by source group, material, destination group and moment. -/
structure OuterSrc where
  G : ℕ
  nx : ℕ
  ny : ℕ
  nz : ℕ
  qi0 : ℕ → ℕ → ℕ → ℕ → ℚ
  flux0 : ℕ → ℕ → ℕ → ℕ → ℚ
  matf : ℕ → ℕ → ℕ → ℕ
  slgg : ℕ → ℕ → ℕ → ℕ → ℚ

/-- One write to a flat array modelled as a function. -/
def flatWrite (f : ℕ → ℚ) (idx : ℕ) (v : ℚ) : ℕ → ℚ :=
  fun n => if n = idx then v else f n

/-- Consecutive writes of the values v 0 to v (s - 1) at the offsets base to
base + s - 1. -/
def fillRange (f : ℕ → ℚ) (base s : ℕ) (v : ℕ → ℚ) : ℕ → ℚ :=
  (List.range s).foldl (fun acc i => flatWrite acc (base + i) (v i)) f

/-- The flux strip load of the outer source build: for every group g the strip
entries g * strip + i receive flux0 of the cell x + i; the freshly allocated
strip is modelled as the all-zero function. -/
def loadFluxStrip (inp : OuterSrc) (strip x y z : ℕ) : ℕ → ℚ :=
  (List.range inp.G).foldl
    (fun acc g =>
      fillRange acc (g * strip) strip (fun i => inp.flux0 g (x + i) y z))
    (fun _ => 0)

/-- The per-cell value computed inside the strip loop: qi plus the
off-diagonal scattering terms, with the flux read back from the strip entry
g2 * strip + i and the material looked up at the cell. -/
def qo0Val (inp : OuterSrc) (fs : ℕ → ℚ) (strip g1 xx i y z : ℕ) : ℚ :=
  (List.range inp.G).foldl
    (fun q g2 =>
      if g1 = g2 then q
      else q + inp.slgg g1 (inp.matf xx y z) g2 0 * fs (g2 * strip + i))
    (inp.qi0 g1 xx y z)

/-- One write to the group-indexed output field. -/
def qoWrite (f : ℕ → ℕ → ℕ → ℕ → ℚ) (g x y z : ℕ) (v : ℚ) :
    ℕ → ℕ → ℕ → ℕ → ℚ :=
  fun g2 x2 y2 z2 =>
    if g2 = g ∧ x2 = x ∧ y2 = y ∧ z2 = z then v else f g2 x2 y2 z2

/-- One x strip of the outer source build at offset x: the flux strip is
loaded, then every group and strip cell receives its qo0 value. -/
def stripBody (inp : OuterSrc) (strip y z x : ℕ)
    (acc : ℕ → ℕ → ℕ → ℕ → ℚ) : ℕ → ℕ → ℕ → ℕ → ℚ :=
  (List.range inp.G).foldl
    (fun accg g1 =>
      (List.range strip).foldl
        (fun acci i =>
          qoWrite acci g1 (x + i) y z
            (qo0Val inp (loadFluxStrip inp strip x y z) strip g1 (x + i) i
              y z))
        accg)
    acc

/-- The blocked x sweep: B strips of width strip starting at multiples of
strip, as many as the x loop of the source runs. -/
def xBlocks (inp : OuterSrc) (strip y z B : ℕ)
    (acc : ℕ → ℕ → ℕ → ℕ → ℚ) : ℕ → ℕ → ℕ → ℕ → ℚ :=
  (List.range B).foldl (fun a b => stripBody inp strip y z (b * strip) a) acc

/-- CalcOuterSource::cpu_implementation qo0 computation: z, then y, then x in
strips of width gcd(nx, 32); none when the subtraction gcd cannot return.  The
write-discard output field starts from an arbitrary qinit. -/
def calcOuterSource (inp : OuterSrc) (qinit : ℕ → ℕ → ℕ → ℕ → ℚ) :
    Option (ℕ → ℕ → ℕ → ℕ → ℚ) :=
  (gcdSnap (inp.nx + 32) inp.nx 32).map fun strip =>
    (List.range inp.nz).foldl
      (fun accz z =>
        (List.range inp.ny).foldl
          (fun accy y =>
            xBlocks inp strip y z ((inp.nx + strip - 1) / strip) accy)
          accz)
      qinit

/-- The claimed per-cell outer source value: qi plus the scattering sum over
all other groups at moment 0. -/
def qo0Spec (inp : OuterSrc) (g1 x y z : ℕ) : ℚ :=
  inp.qi0 g1 x y z +
    ∑ g2 ∈ (Finset.range inp.G).filter (fun g2 => g1 ≠ g2),
      inp.slgg g1 (inp.matf x y z) g2 0 * inp.flux0 g2 x y z

/-- Concrete witness inputs for the outer source build: one group and a single
cell. -/
def outerSrcW : OuterSrc :=
  ⟨1, 1, 1, 1, (fun _ _ _ _ => 3), (fun _ _ _ _ => 7), (fun _ _ _ => 0),
   (fun _ _ _ _ => 2)⟩

/-! ### C2 and C9: the scalar, SSE and AVX cell kernels of MiniKBATask -/

/-- Inputs read by one cell of the sweep kernels: the quadrature tables, the
incoming fluxes, the source quad and the per-cell dinv vector, shared by the
scalar, SSE and AVX variants. -/
structure CellIn where
  A : ℕ
  nm : ℕ
  corner : ℕ
  qtot : ℕ → ℚ
  ec : ℕ → ℚ
  mms : Bool
  qim : ℕ → ℚ
  psii0 : ℕ → ℚ
  psij0 : ℕ → ℚ
  psik0 : ℕ → ℚ
  tfi : ℕ → ℚ
  mu : ℕ → ℚ
  eta : ℕ → ℚ
  xi : ℕ → ℚ
  w : ℕ → ℚ
  hi : ℚ
  hj : ℚ
  hk : ℚ
  vdelt : ℚ
  dinv : ℕ → ℚ

/-- Outputs of one cell of a sweep kernel: the three outgoing face flux
buffers, the outgoing time flux when written, and the total folded into the
scalar flux. -/
structure CellOut where
  psiiO : ℕ → ℚ
  psijO : ℕ → ℚ
  psikO : ℕ → ℚ
  tfo : Option (ℕ → ℚ)
  total : ℚ

/-- Scalar cpu angular source: psi is set to qtot 0 on the angles, the moment
terms are added by the fuel-indexed loop with the source's literal guard (none
when that loop cannot exit), and qim is added when the MMS source is active. -/
def cpuPsi (c : CellIn) (fuel : ℕ) : Option (ℕ → ℚ) :=
  let psi0 : ℕ → ℚ := fun a => if a < c.A then c.qtot 0 else 0
  let withM : Option (ℕ → ℚ) :=
    if 1 < c.nm then cpuMomentLoop c.A c.nm c.corner c.ec c.qtot fuel 1 psi0
    else some psi0
  withM.map fun psi =>
    if c.mms then fun a => if a < c.A then psi a + c.qim a else psi a else psi

/-- Scalar cpu initial solution: psi plus the three incoming face terms, the
time term when vdelt is nonzero, then the multiply by dinv, per angle. -/
def cpuPc (c : CellIn) (psi : ℕ → ℚ) : ℕ → ℚ := fun a =>
  if a < c.A then
    (psi a + c.psii0 a * c.mu a * c.hi + c.psij0 a * c.eta a * c.hj +
      c.psik0 a * c.xi a * c.hk +
      (if c.vdelt ≠ 0 then c.vdelt * c.tfi a else 0)) * c.dinv a
  else 0

/-- Scalar no-fixup outgoing x flux: twice pc minus the incoming value, on the
angles below A. -/
def noFixupPsii (c : CellIn) (pc : ℕ → ℚ) : ℕ → ℚ :=
  fun a => if a < c.A then 2 * pc a - c.psii0 a else c.psii0 a

/-- Scalar no-fixup outgoing y flux. -/
def noFixupPsij (c : CellIn) (pc : ℕ → ℚ) : ℕ → ℚ :=
  fun a => if a < c.A then 2 * pc a - c.psij0 a else c.psij0 a

/-- Scalar no-fixup outgoing z flux. -/
def noFixupPsik (c : CellIn) (pc : ℕ → ℚ) : ℕ → ℚ :=
  fun a => if a < c.A then 2 * pc a - c.psik0 a else c.psik0 a

/-- Scalar no-fixup temporal flux: written only when vdelt is nonzero. -/
def noFixupTfo (c : CellIn) (pc : ℕ → ℚ) : Option (ℕ → ℚ) :=
  if c.vdelt ≠ 0 then
    some (fun a => if a < c.A then 2 * pc a - c.tfi a else 0)
  else none

/-- Scalar cpu flux reduction: psi becomes w times pc and is summed over the
angles. -/
def cpuTotal (c : CellIn) (pc : ℕ → ℚ) : ℚ :=
  (List.range c.A).foldl (fun t a => t + c.w a * pc a) 0

/-- The scalar cpu cell kernel on the no-fixup path: angular source, initial
solution, outgoing fluxes, and the weighted flux total. -/
def cpuCellNoFixup (c : CellIn) (fuel : ℕ) : Option CellOut :=
  (cpuPsi c fuel).map fun psi =>
    let pc := cpuPc c psi
    ⟨noFixupPsii c pc, noFixupPsij c pc, noFixupPsik c pc, noFixupTfo c pc,
     cpuTotal c pc⟩

/-- SSE angular source, indexed by scalar lane: the vector registers pair the
lanes 2v and 2v+1, so the writes cover the lanes below 2 * (A / 2); the moment
loop of the SSE kernel uses the in-range guard l < nm. -/
def ssePsi (c : CellIn) : ℕ → ℚ :=
  let lanes := 2 * (c.A / 2)
  let psi0 : ℕ → ℚ := fun a => if a < lanes then c.qtot 0 else 0
  let withM : ℕ → ℚ :=
    if 1 < c.nm then
      (List.range' 1 (c.nm - 1)).foldl
        (fun psi l => fun a =>
          if a < lanes then
            psi a + c.ec (c.corner * c.nm * c.A + l * c.A + a) * c.qtot l
          else psi a)
        psi0
    else psi0
  if c.mms then fun a => if a < lanes then withM a + c.qim a else withM a
  else withM

/-- SSE initial solution on scalar lanes: the x, y and time terms and the dinv
multiply cover the lanes below 2 * (A / 2), but the z-term loop of the source
runs over A vector registers rather than A / 2 and therefore touches the lanes
below 2 * A. -/
def ssePc (c : CellIn) : ℕ → ℚ :=
  let lanes := 2 * (c.A / 2)
  let psi := ssePsi c
  let pc0 : ℕ → ℚ := fun a => if a < lanes then psi a else 0
  let pcx : ℕ → ℚ := fun a =>
    if a < lanes then pc0 a + c.psii0 a * c.mu a * c.hi else pc0 a
  let pcy : ℕ → ℚ := fun a =>
    if a < lanes then pcx a + c.psij0 a * c.eta a * c.hj else pcx a
  let pcz : ℕ → ℚ := fun a =>
    if a < 2 * c.A then pcy a + c.psik0 a * c.xi a * c.hk else pcy a
  let pct : ℕ → ℚ :=
    if c.vdelt ≠ 0 then
      fun a => if a < lanes then pcz a + c.vdelt * c.tfi a else pcz a
    else pcz
  fun a => if a < lanes then pct a * c.dinv a else pct a

/-- SSE flux reduction: the vector accumulator sums the psi source registers
directly (the weights w and the solution pc are never applied), and the
horizontal add returns lane 0 plus lane 1 of the accumulator. -/
def sseTotal (c : CellIn) : ℚ :=
  let psi := ssePsi c
  let vt := (List.range (c.A / 2)).foldl
    (fun (p : ℚ × ℚ) v => (p.1 + psi (2 * v), p.2 + psi (2 * v + 1))) (0, 0)
  vt.1 + vt.2

/-- The SSE cell kernel on the no-fixup path. -/
def sseCellNoFixup (c : CellIn) : CellOut :=
  let lanes := 2 * (c.A / 2)
  let pc := ssePc c
  ⟨fun a => if a < lanes then 2 * pc a - c.psii0 a else c.psii0 a,
   fun a => if a < lanes then 2 * pc a - c.psij0 a else c.psij0 a,
   fun a => if a < lanes then 2 * pc a - c.psik0 a else c.psik0 a,
   if c.vdelt ≠ 0 then
     some (fun a => if a < lanes then 2 * pc a - c.tfi a else 0)
   else none,
   sseTotal c⟩

/-- A four-lane AVX register of doubles. -/
structure Quad4 where
  q0 : ℚ
  q1 : ℚ
  q2 : ℚ
  q3 : ℚ
deriving DecidableEq

/-- The 256-bit hadd intrinsic: adjacent lanes are added within each 128-bit
half, the two operands interleaved. -/
def hadd4 (x y : Quad4) : Quad4 :=
  ⟨x.q0 + x.q1, y.q0 + y.q1, x.q2 + x.q3, y.q2 + y.q3⟩

/-- AVX angular source on scalar lanes: quadruples of lanes 4v to 4v+3, writes
covering the lanes below 4 * (A / 4); the AVX moment loop uses the in-range
guard l < nm. -/
def avxPsi (c : CellIn) : ℕ → ℚ :=
  let lanes := 4 * (c.A / 4)
  let psi0 : ℕ → ℚ := fun a => if a < lanes then c.qtot 0 else 0
  let withM : ℕ → ℚ :=
    if 1 < c.nm then
      (List.range' 1 (c.nm - 1)).foldl
        (fun psi l => fun a =>
          if a < lanes then
            psi a + c.ec (c.corner * c.nm * c.A + l * c.A + a) * c.qtot l
          else psi a)
        psi0
    else psi0
  if c.mms then fun a => if a < lanes then withM a + c.qim a else withM a
  else withM

/-- AVX initial solution on scalar lanes: as the SSE one, with the z-term loop
of the source again running over A vector registers and touching the lanes
below 4 * A. -/
def avxPc (c : CellIn) : ℕ → ℚ :=
  let lanes := 4 * (c.A / 4)
  let psi := avxPsi c
  let pc0 : ℕ → ℚ := fun a => if a < lanes then psi a else 0
  let pcx : ℕ → ℚ := fun a =>
    if a < lanes then pc0 a + c.psii0 a * c.mu a * c.hi else pc0 a
  let pcy : ℕ → ℚ := fun a =>
    if a < lanes then pcx a + c.psij0 a * c.eta a * c.hj else pcx a
  let pcz : ℕ → ℚ := fun a =>
    if a < 4 * c.A then pcy a + c.psik0 a * c.xi a * c.hk else pcy a
  let pct : ℕ → ℚ :=
    if c.vdelt ≠ 0 then
      fun a => if a < lanes then pcz a + c.vdelt * c.tfi a else pcz a
    else pcz
  fun a => if a < lanes then pct a * c.dinv a else pct a

/-- AVX flux reduction: the accumulator sums the psi source registers, the
hadd intrinsic is applied twice and lane 0 is extracted, which yields twice
the sum of the first two accumulator lanes rather than the full lane sum. -/
def avxTotal (c : CellIn) : ℚ :=
  let psi := avxPsi c
  let vt := (List.range (c.A / 4)).foldl
    (fun (p : Quad4) v =>
      ⟨p.q0 + psi (4 * v), p.q1 + psi (4 * v + 1), p.q2 + psi (4 * v + 2),
       p.q3 + psi (4 * v + 3)⟩)
    ⟨0, 0, 0, 0⟩
  let t := hadd4 vt vt
  (hadd4 t t).q0

/-- The AVX cell kernel on the no-fixup path. -/
def avxCellNoFixup (c : CellIn) : CellOut :=
  let lanes := 4 * (c.A / 4)
  let pc := avxPc c
  ⟨fun a => if a < lanes then 2 * pc a - c.psii0 a else c.psii0 a,
   fun a => if a < lanes then 2 * pc a - c.psij0 a else c.psij0 a,
   fun a => if a < lanes then 2 * pc a - c.psik0 a else c.psik0 a,
   if c.vdelt ≠ 0 then
     some (fun a => if a < lanes then 2 * pc a - c.tfi a else 0)
   else none,
   avxTotal c⟩

/-- Shared concrete cell inputs for the kernel comparison: four angles, one
moment, no MMS, unit source, zero incoming fluxes, unit weights and dinv one
half, time-independent. -/
def c2In : CellIn :=
  ⟨4, 1, 0, (fun _ => 1), (fun _ => 0), false, (fun _ => 0), (fun _ => 0),
   (fun _ => 0), (fun _ => 0), (fun _ => 0), (fun _ => 0), (fun _ => 0),
   (fun _ => 0), (fun _ => 1), 1, 1, 1, 0, (fun _ => 1/2)⟩

/-- Every hv flag of a state is 0 or 1. -/
def Hv01 (st : FixupState) : Prop :=
  ∀ a : ℕ, (st.hvx a = 0 ∨ st.hvx a = 1) ∧ (st.hvy a = 0 ∨ st.hvy a = 1) ∧
    (st.hvz a = 0 ∨ st.hvz a = 1) ∧ (st.hvt a = 0 ∨ st.hvt a = 1)

/-- Concrete one-angle fixup inputs with all quantities zero, used to witness
the fixup theorems on an explicit run. -/
def fixupCfgW : FixupCfg :=
  ⟨1, fun _ => 0, fun _ => 0, fun _ => 0, fun _ => 0, fun _ => 0,
   fun _ => 0, fun _ => 0, fun _ => 0, 0, 0, 0, 0, 0⟩

/-- The state returned by the fixup loop on the witness inputs: the loop exits
on its first pass. -/
def fixupStW : FixupState := passHv fixupCfgW (initFixup fun _ => 0)

/-! ### Theorems -/

/-- Helper: a flipped comparison picks the same element in a linear order. -/
lemma if_gt_comm {α : Type} [LinearOrder α] (a b : α) :
    (if b > a then b else a) = (if a > b then a else b) := by
  rcases lt_trichotomy a b with h | h | h
  · rw [if_pos h, if_neg (asymm h)]
  · subst h; rfl
  · rw [if_neg (asymm h), if_pos h]

/-- Helper: a flipped comparison picks the same element, min version. -/
lemma if_lt_comm {α : Type} [LinearOrder α] (a b : α) :
    (if b < a then b else a) = (if a < b then a else b) := by
  rcases lt_trichotomy a b with h | h | h
  · rw [if_neg (asymm h), if_pos h]
  · subst h; rfl
  · rw [if_pos h, if_neg (asymm h)]

/-- Helper: the literal moment-loop guard 1 < nm never lets the loop exit, for
any amount of fuel. -/
lemma cpuMomentLoop_none (A nm corner : ℕ) (ec qtot : ℕ → ℚ) (hnm : 1 < nm) :
    ∀ (fuel l : ℕ) (psi : ℕ → ℚ),
      cpuMomentLoop A nm corner ec qtot fuel l psi = none := by
  intro fuel
  induction fuel with
  | zero => intro l psi; simp [cpuMomentLoop, hnm]
  | succ n ih => intro l psi; simp [cpuMomentLoop, hnm, ih]

/-- C1: in the cpu sweep kernel, for num_moments = 2 (the smallest count with
num_moments > 1) the angular-source moment loop never terminates, because its
guard is the constant condition 1 < num_moments instead of l < num_moments: for
every fuel, every starting index and every state, the loop model returns
none instead of iterating l over exactly the range from 1 below num_moments. -/
theorem c1_moment_loop_diverges :
    ∀ (A corner fuel l : ℕ) (ec qtot psi : ℕ → ℚ),
      cpuMomentLoop A 2 corner ec qtot fuel l psi = none := by
  intro A corner fuel l ec qtot psi
  exact cpuMomentLoop_none A 2 corner ec qtot (by norm_num) fuel l psi

/-- C6: evaluated at dx = 1, dy = 2, dz = 3 with chunk origin 0, the source
boundary builds advance jb and kb by dx: jb 1 = 1 while the claimed step gives
jb 0 + dy = 2, and kb 1 = 1 while the claimed step gives kb 0 + dz = 3; only the
x axis advances by its own width. -/
theorem c6_boundary_step_bug :
    mmsJb 0 2 1 1 = 1 ∧ mmsJb 0 2 1 0 + 2 = 2 ∧ (1 : ℚ) ≠ 2 ∧
    mmsKb 0 3 1 1 = 1 ∧ mmsKb 0 3 1 0 + 3 = 3 ∧ (1 : ℚ) ≠ 3 ∧
    (∀ (lo dx : ℚ) (i : ℕ), mmsIb lo dx (i + 1) = mmsIb lo dx i + dx) := by
  refine ⟨?_, ?_, by norm_num, ?_, ?_, by norm_num, ?_⟩
  · show mmsJb 0 2 1 0 + 1 = 1
    show (0 : ℚ) * 2 + 1 = 1
    norm_num
  · show (0 : ℚ) * 2 + 2 = 2
    norm_num
  · show mmsKb 0 3 1 0 + 1 = 1
    show (0 : ℚ) * 3 + 1 = 1
    norm_num
  · show (0 : ℚ) * 3 + 3 = 3
    norm_num
  · intro lo dx i
    rfl

/-- C10: the MMS TRIPLE reduction has identity (-inf, +inf, 0), folding any
triple with the identity returns it unchanged, fold is commutative, and apply
computes the same combination as fold. -/
theorem c10_mms_reduction_triple :
    (∀ x : Triple, MMSReduction.fold x MMSReduction.identity = x) ∧
    (∀ x y : Triple, MMSReduction.fold x y = MMSReduction.fold y x) ∧
    (∀ x y : Triple, MMSReduction.apply x y = MMSReduction.fold x y) := by
  refine ⟨?_, ?_, ?_⟩
  · rintro ⟨x0, x1, x2⟩
    simp only [MMSReduction.fold, MMSReduction.identity]
    rw [if_neg (not_lt_bot), if_neg (not_top_lt), add_zero]
  · rintro ⟨x0, x1, x2⟩ ⟨y0, y1, y2⟩
    simp only [MMSReduction.fold]
    rw [if_gt_comm x0 y0, if_lt_comm x1 y1, add_comm x2 y2]
  · intro x y
    rfl

/-- Helper: the hvx flags after the counting phase. -/
lemma passHv_hvx (c : FixupCfg) (st : FixupState) :
    (passHv c st).hvx = hvStep c.A (fxX c st.pc) st.hvx := rfl

/-- Helper: the hvy flags after the counting phase. -/
lemma passHv_hvy (c : FixupCfg) (st : FixupState) :
    (passHv c st).hvy = hvStep c.A (fxY c st.pc) st.hvy := rfl

/-- Helper: the hvz flags after the counting phase. -/
lemma passHv_hvz (c : FixupCfg) (st : FixupState) :
    (passHv c st).hvz = hvStep c.A (fxZ c st.pc) st.hvz := rfl

/-- Helper: the hvt flags after the counting phase move only when vdelt is
nonzero. -/
lemma passHv_hvt (c : FixupCfg) (st : FixupState) :
    (passHv c st).hvt =
      if c.vdelt ≠ 0 then hvStep c.A (fxT c st.pc) st.hvt else st.hvt := rfl

/-- Helper: the counting phase does not touch pc. -/
lemma passHv_pc (c : FixupCfg) (st : FixupState) :
    (passHv c st).pc = st.pc := rfl

/-- Helper: the recomputed pc of a continuing pass. -/
lemma passNext_pc (c : FixupCfg) (st : FixupState) :
    (passNext c st).pc = fun a => if a < c.A then
        recompVal c (passHv c st).hvx (passHv c st).hvy (passHv c st).hvz
          (passHv c st).hvt a
      else st.pc a := rfl

/-- Helper: a continuing pass records the fresh count. -/
lemma passNext_old (c : FixupCfg) (st : FixupState) :
    (passNext c st).old = negCount c st.pc := rfl

/-- Helper: one unfolding of the fixup loop at positive fuel. -/
lemma fixupLoop_succ (c : FixupCfg) (fuel : ℕ) (st : FixupState) :
    fixupLoop c (fuel + 1) st =
      if negCount c st.pc = st.old then some (passHv c st)
      else fixupLoop c fuel (passNext c st) := rfl

/-- Helper: a successful fixup loop run survives any fuel increase. -/
lemma fixupLoop_mono (c : FixupCfg) :
    ∀ (n : ℕ) (st r : FixupState), fixupLoop c n st = some r →
      ∀ m, n ≤ m → fixupLoop c m st = some r := by
  intro n
  induction n with
  | zero => intro st r h; simp [fixupLoop] at h
  | succ k ih =>
    intro st r h m hm
    obtain ⟨m2, rfl⟩ : ∃ m2, m = m2 + 1 := ⟨m - 1, by omega⟩
    rw [fixupLoop_succ] at h ⊢
    by_cases hc : negCount c st.pc = st.old
    · rw [if_pos hc] at h ⊢; exact h
    · rw [if_neg hc] at h ⊢
      exact ih _ _ h m2 (by omega)

/-- Helper: rescanning hv flags never adds nonzero entries. -/
lemma hvWeight_hvStep_le (A : ℕ) (fx hv : ℕ → ℚ) :
    hvWeight A (hvStep A fx hv) ≤ hvWeight A hv := by
  apply Finset.card_le_card
  intro a ha
  simp only [Finset.mem_filter, Finset.mem_range] at ha ⊢
  refine ⟨ha.1, ?_⟩
  intro h0
  exact ha.2 (by simp [hvStep, h0])

/-- Helper: a rescan that changes some entry strictly lowers the nonzero
count. -/
lemma hvWeight_hvStep_lt (A : ℕ) (fx hv : ℕ → ℚ) (a : ℕ)
    (hne : hvStep A fx hv a ≠ hv a) :
    hvWeight A (hvStep A fx hv) < hvWeight A hv := by
  have hcond : a < A ∧ fx a < 0 := by
    by_contra hc
    exact hne (by simp [hvStep, hc])
  have h0 : hvStep A fx hv a = 0 := by simp [hvStep, hcond]
  have hnz : hv a ≠ 0 := fun h => hne (by rw [h0, h])
  apply Finset.card_lt_card
  rw [Finset.ssubset_iff_of_subset]
  · refine ⟨a, ?_, ?_⟩
    · exact Finset.mem_filter.mpr ⟨Finset.mem_range.mpr hcond.1, hnz⟩
    · simp only [Finset.mem_filter, Finset.mem_range, not_and, not_not]
      intro _
      exact h0
  · intro b hb
    simp only [Finset.mem_filter, Finset.mem_range] at hb ⊢
    refine ⟨hb.1, ?_⟩
    intro hbad
    exact hb.2 (by simp [hvStep, hbad])

/-- Helper: the negative count only looks at the angles below A. -/
lemma negCountOf_congr (A : ℕ) (f g : ℕ → ℚ) (h : ∀ a < A, f a = g a) :
    negCountOf A f = negCountOf A g := by
  unfold negCountOf
  congr 1
  apply Finset.filter_congr
  intro a ha
  rw [h a (Finset.mem_range.mp ha)]

/-- Helper: the pass count depends on pc only below A. -/
lemma negCount_congr (c : FixupCfg) (pc1 pc2 : ℕ → ℚ)
    (h : ∀ a < c.A, pc1 a = pc2 a) : negCount c pc1 = negCount c pc2 := by
  unfold negCount
  rw [negCountOf_congr c.A (fxX c pc1) (fxX c pc2)
      (fun a ha => by unfold fxX; rw [h a ha]),
    negCountOf_congr c.A (fxY c pc1) (fxY c pc2)
      (fun a ha => by unfold fxY; rw [h a ha]),
    negCountOf_congr c.A (fxZ c pc1) (fxZ c pc2)
      (fun a ha => by unfold fxZ; rw [h a ha]),
    negCountOf_congr c.A (fxT c pc1) (fxT c pc2)
      (fun a ha => by unfold fxT; rw [h a ha])]

/-- Helper: a continuing pass leaves its state recomputed from its own
flags. -/
lemma passNext_recomputed (c : FixupCfg) (st : FixupState) :
    Recomputed c (passNext c st) := by
  intro a ha
  rw [passNext_pc]
  simp only
  rw [if_pos ha]
  rfl

/-- Helper: the hv flags of a continuing pass are those of the counting
phase. -/
lemma hvTotal_passNext (c : FixupCfg) (st : FixupState) :
    hvTotal c (passNext c st) = hvTotal c (passHv c st) := rfl

/-- Helper: the counting phase never raises the number of live flags. -/
lemma hvTotal_passHv_le (c : FixupCfg) (st : FixupState) :
    hvTotal c (passHv c st) ≤ hvTotal c st := by
  have hx := hvWeight_hvStep_le c.A (fxX c st.pc) st.hvx
  have hy := hvWeight_hvStep_le c.A (fxY c st.pc) st.hvy
  have hz := hvWeight_hvStep_le c.A (fxZ c st.pc) st.hvz
  have ht : hvWeight c.A (passHv c st).hvt ≤ hvWeight c.A st.hvt := by
    rw [passHv_hvt]
    split
    · exact hvWeight_hvStep_le _ _ _
    · exact le_refl _
  unfold hvTotal
  rw [passHv_hvx, passHv_hvy, passHv_hvz]
  omega

/-- Helper: a counting phase that changes any flag strictly lowers the number
of live flags. -/
lemma hvTotal_passHv_lt (c : FixupCfg) (st : FixupState)
    (hne : ¬((passHv c st).hvx = st.hvx ∧ (passHv c st).hvy = st.hvy ∧
      (passHv c st).hvz = st.hvz ∧ (passHv c st).hvt = st.hvt)) :
    hvTotal c (passHv c st) < hvTotal c st := by
  have hx := hvWeight_hvStep_le c.A (fxX c st.pc) st.hvx
  have hy := hvWeight_hvStep_le c.A (fxY c st.pc) st.hvy
  have hz := hvWeight_hvStep_le c.A (fxZ c st.pc) st.hvz
  have ht : hvWeight c.A (passHv c st).hvt ≤ hvWeight c.A st.hvt := by
    rw [passHv_hvt]
    split
    · exact hvWeight_hvStep_le _ _ _
    · exact le_refl _
  have hgoal : hvTotal c (passHv c st) =
      hvWeight c.A (hvStep c.A (fxX c st.pc) st.hvx) +
      hvWeight c.A (hvStep c.A (fxY c st.pc) st.hvy) +
      hvWeight c.A (hvStep c.A (fxZ c st.pc) st.hvz) +
      hvWeight c.A (passHv c st).hvt := rfl
  have htot : hvTotal c st = hvWeight c.A st.hvx + hvWeight c.A st.hvy +
      hvWeight c.A st.hvz + hvWeight c.A st.hvt := rfl
  by_cases h1 : (passHv c st).hvx = st.hvx
  · by_cases h2 : (passHv c st).hvy = st.hvy
    · by_cases h3 : (passHv c st).hvz = st.hvz
      · have h4 : (passHv c st).hvt ≠ st.hvt := by
          intro h4
          exact hne ⟨h1, h2, h3, h4⟩
        have hvd : c.vdelt ≠ 0 := by
          intro hv0
          apply h4
          rw [passHv_hvt, if_neg (by simp [hv0])]
        obtain ⟨a, ha⟩ := Function.ne_iff.mp h4
        rw [passHv_hvt, if_pos hvd] at ha
        have hlt := hvWeight_hvStep_lt c.A (fxT c st.pc) st.hvt a ha
        have ht2 : hvWeight c.A (passHv c st).hvt <
            hvWeight c.A st.hvt := by
          rw [passHv_hvt, if_pos hvd]
          exact hlt
        omega
      · obtain ⟨a, ha⟩ := Function.ne_iff.mp h3
        rw [passHv_hvz] at ha
        have hlt := hvWeight_hvStep_lt c.A (fxZ c st.pc) st.hvz a ha
        omega
    · obtain ⟨a, ha⟩ := Function.ne_iff.mp h2
      rw [passHv_hvy] at ha
      have hlt := hvWeight_hvStep_lt c.A (fxY c st.pc) st.hvy a ha
      omega
  · obtain ⟨a, ha⟩ := Function.ne_iff.mp h1
    rw [passHv_hvx] at ha
    have hlt := hvWeight_hvStep_lt c.A (fxX c st.pc) st.hvx a ha
    omega

/-- Helper: when the counting phase changes no flag, a recomputed state
reproduces its own pc, so the following pass exits. -/
lemma fixupLoop_exit_next (c : FixupCfg) (st : FixupState)
    (hrec : Recomputed c st)
    (hall : (passHv c st).hvx = st.hvx ∧ (passHv c st).hvy = st.hvy ∧
      (passHv c st).hvz = st.hvz ∧ (passHv c st).hvt = st.hvt) :
    negCount c (passNext c st).pc = (passNext c st).old := by
  have hpc : ∀ a < c.A, (passNext c st).pc a = st.pc a := by
    intro a ha
    rw [passNext_pc]
    simp only
    rw [if_pos ha, hall.1, hall.2.1, hall.2.2.1, hall.2.2.2]
    exact (hrec a ha).symm
  rw [passNext_old]
  exact negCount_congr c _ _ hpc

/-- Helper: from a recomputed state the fixup loop exits within twice the
number of live hv flags plus two passes. -/
lemma fixupLoop_total_aux (c : FixupCfg) :
    ∀ (w : ℕ) (st : FixupState), Recomputed c st → hvTotal c st ≤ w →
      (fixupLoop c (2 * w + 2) st).isSome = true := by
  intro w
  induction w with
  | zero =>
    intro st hrec hw
    rw [show 2 * 0 + 2 = 1 + 1 from by norm_num, fixupLoop_succ]
    by_cases hc : negCount c st.pc = st.old
    · rw [if_pos hc]; rfl
    · rw [if_neg hc]
      by_cases hall : (passHv c st).hvx = st.hvx ∧ (passHv c st).hvy = st.hvy ∧
          (passHv c st).hvz = st.hvz ∧ (passHv c st).hvt = st.hvt
      · rw [show (1 : ℕ) = 0 + 1 from rfl, fixupLoop_succ,
          if_pos (fixupLoop_exit_next c st hrec hall)]
        rfl
      · have hlt := hvTotal_passHv_lt c st hall
        omega
  | succ n ih =>
    intro st hrec hw
    rw [show 2 * (n + 1) + 2 = (2 * n + 3) + 1 from by ring, fixupLoop_succ]
    by_cases hc : negCount c st.pc = st.old
    · rw [if_pos hc]; rfl
    · rw [if_neg hc]
      by_cases hall : (passHv c st).hvx = st.hvx ∧ (passHv c st).hvy = st.hvy ∧
          (passHv c st).hvz = st.hvz ∧ (passHv c st).hvt = st.hvt
      · rw [show 2 * n + 3 = (2 * n + 2) + 1 from by ring, fixupLoop_succ,
          if_pos (fixupLoop_exit_next c st hrec hall)]
        rfl
      · have hlt := hvTotal_passHv_lt c st hall
        have hrec2 := passNext_recomputed c st
        have hw2 : hvTotal c (passNext c st) ≤ n := by
          rw [hvTotal_passNext]
          omega
        have hres := ih (passNext c st) hrec2 hw2
        obtain ⟨r, hr⟩ := Option.isSome_iff_exists.mp hres
        rw [fixupLoop_mono c (2 * n + 2) (passNext c st) r hr (2 * n + 3)
          (by omega)]
        rfl

/-- C7: for every cell and all inputs the negative-flux fixup loop of the cpu
sweep kernel terminates within 8 * num_angles + 3 passes; each pass exits
exactly when the count of negative tentative fluxes over the three faces (and
the time term when vdelt is nonzero) equals the count of the previous pass, and
the hv flags only ever change from their current value to 0. -/
theorem c7_fixup_loop_termination (c : FixupCfg) (pc0 : ℕ → ℚ) :
    (fixupLoop c (8 * c.A + 3) (initFixup pc0)).isSome = true ∧
    (∀ (st : FixupState) (fuel : ℕ),
      fixupLoop c (fuel + 1) st =
        if negCount c st.pc = st.old then some (passHv c st)
        else fixupLoop c fuel (passNext c st)) ∧
    (∀ (st : FixupState) (a : ℕ),
      ((passHv c st).hvx a = st.hvx a ∨ (passHv c st).hvx a = 0) ∧
      ((passHv c st).hvy a = st.hvy a ∨ (passHv c st).hvy a = 0) ∧
      ((passHv c st).hvz a = st.hvz a ∨ (passHv c st).hvz a = 0) ∧
      ((passHv c st).hvt a = st.hvt a ∨ (passHv c st).hvt a = 0)) := by
  refine ⟨?_, fun st fuel => fixupLoop_succ c fuel st, ?_⟩
  · rw [show 8 * c.A + 3 = (8 * c.A + 2) + 1 from by ring, fixupLoop_succ]
    by_cases hc : negCount c (initFixup pc0).pc = (initFixup pc0).old
    · rw [if_pos hc]; rfl
    · rw [if_neg hc]
      have hcard : ∀ f : ℕ → ℚ,
          ((Finset.range c.A).filter fun a => f a ≠ 0).card ≤ c.A := by
        intro f
        calc ((Finset.range c.A).filter fun a => f a ≠ 0).card
            ≤ (Finset.range c.A).card := Finset.card_filter_le _ _
          _ = c.A := Finset.card_range _
      have hinit : hvTotal c (initFixup pc0) ≤ 4 * c.A := by
        have h1 := hcard (initFixup pc0).hvx
        have h2 := hcard (initFixup pc0).hvy
        have h3 := hcard (initFixup pc0).hvz
        have h4 := hcard (initFixup pc0).hvt
        unfold hvTotal hvWeight
        omega
      have hle : hvTotal c (passNext c (initFixup pc0)) ≤ 4 * c.A := by
        rw [hvTotal_passNext]
        have := hvTotal_passHv_le c (initFixup pc0)
        omega
      have := fixupLoop_total_aux c (4 * c.A) (passNext c (initFixup pc0))
        (passNext_recomputed c (initFixup pc0)) hle
      rw [show 8 * c.A + 2 = 2 * (4 * c.A) + 2 from by ring]
      exact this
  · intro st a
    refine ⟨?_, ?_, ?_, ?_⟩
    · rw [passHv_hvx]
      by_cases hcond : a < c.A ∧ fxX c st.pc a < 0
      · exact Or.inr (by simp [hvStep, hcond])
      · exact Or.inl (by simp [hvStep, hcond])
    · rw [passHv_hvy]
      by_cases hcond : a < c.A ∧ fxY c st.pc a < 0
      · exact Or.inr (by simp [hvStep, hcond])
      · exact Or.inl (by simp [hvStep, hcond])
    · rw [passHv_hvz]
      by_cases hcond : a < c.A ∧ fxZ c st.pc a < 0
      · exact Or.inr (by simp [hvStep, hcond])
      · exact Or.inl (by simp [hvStep, hcond])
    · rw [passHv_hvt]
      by_cases hvd : c.vdelt ≠ 0
      · rw [if_pos hvd]
        by_cases hcond : a < c.A ∧ fxT c st.pc a < 0
        · exact Or.inr (by simp [hvStep, hcond])
        · exact Or.inl (by simp [hvStep, hcond])
      · rw [if_neg hvd]
        exact Or.inl rfl

/-- Helper: the recompute formula with its two clamps never returns a negative
value. -/
lemma div_clamp_nonneg (p d tol : ℚ) (htol : 0 < tol) :
    0 ≤ if (if p ≤ 0 then 0 else d) < tol then 0
      else p / (if p ≤ 0 then 0 else d) := by
  by_cases hp : p ≤ 0
  · simp [hp, htol]
  · rw [if_neg hp]
    by_cases hd : d < tol
    · rw [if_pos hd]
    · rw [if_neg hd]
      exact div_nonneg (le_of_lt (not_le.mp hp))
        (le_trans (le_of_lt htol) (not_lt.mp hd))

/-- Helper: the recomputed pc of the fixup loop is never negative. -/
lemma recompVal_nonneg (c : FixupCfg) (hvx hvy hvz hvt : ℕ → ℚ) (a : ℕ) :
    0 ≤ recompVal c hvx hvy hvz hvt a := by
  simp only [recompVal]
  exact div_clamp_nonneg _ _ _ (by norm_num [tolr])

/-- Helper: a rescan keeps flags inside the set of 0 and 1. -/
lemma hvStep_01 (A : ℕ) (fx hv : ℕ → ℚ) (h : ∀ a, hv a = 0 ∨ hv a = 1) :
    ∀ a, hvStep A fx hv a = 0 ∨ hvStep A fx hv a = 1 := by
  intro a
  unfold hvStep
  split
  · exact Or.inl rfl
  · exact h a

/-- Helper: the counting phase keeps flags inside the set of 0 and 1. -/
lemma passHv_01 (c : FixupCfg) (st : FixupState) (h : Hv01 st) :
    Hv01 (passHv c st) := by
  intro a
  refine ⟨?_, ?_, ?_, ?_⟩
  · rw [passHv_hvx]
    exact hvStep_01 c.A (fxX c st.pc) st.hvx (fun b => (h b).1) a
  · rw [passHv_hvy]
    exact hvStep_01 c.A (fxY c st.pc) st.hvy (fun b => (h b).2.1) a
  · rw [passHv_hvz]
    exact hvStep_01 c.A (fxZ c st.pc) st.hvz (fun b => (h b).2.2.1) a
  · rw [passHv_hvt]
    split
    · exact hvStep_01 c.A (fxT c st.pc) st.hvt (fun b => (h b).2.2.2) a
    · exact (h a).2.2.2

/-- Helper: a zero negative count means no tentative flux below A is
negative. -/
lemma negCountOf_zero (A : ℕ) (fx : ℕ → ℚ) (h : negCountOf A fx = 0) :
    ∀ b < A, ¬ fx b < 0 := by
  intro b hb hneg
  unfold negCountOf at h
  rw [Finset.card_eq_zero] at h
  have hmem : b ∈ (Finset.range A).filter fun x => fx x < 0 :=
    Finset.mem_filter.mpr ⟨Finset.mem_range.mpr hb, hneg⟩
  rw [h] at hmem
  exact absurd hmem (Finset.not_mem_empty b)

/-- Helper: any state returned by the fixup loop has nonnegative pc on the
angles, flags in 0 and 1, and a zero flag wherever its tentative flux is
negative, provided the incoming x fluxes are nonnegative. -/
lemma fixupLoop_some_props (c : FixupCfg) (hpsii : ∀ a < c.A, 0 ≤ c.psii a) :
    ∀ (fuel : ℕ) (st r : FixupState), fixupLoop c fuel st = some r →
      Hv01 st → ((∀ a < c.A, 0 ≤ st.pc a) ∨ st.old = 0) →
      (∀ a < c.A, 0 ≤ r.pc a) ∧ Hv01 r ∧
      (∀ a < c.A,
        (fxX c r.pc a < 0 → r.hvx a = 0) ∧
        (fxY c r.pc a < 0 → r.hvy a = 0) ∧
        (fxZ c r.pc a < 0 → r.hvz a = 0) ∧
        (c.vdelt ≠ 0 → fxT c r.pc a < 0 → r.hvt a = 0)) := by
  intro fuel
  induction fuel with
  | zero => intro st r h; simp [fixupLoop] at h
  | succ n ih =>
    intro st r h h01 hpcold
    rw [fixupLoop_succ] at h
    by_cases hc : negCount c st.pc = st.old
    · rw [if_pos hc] at h
      obtain rfl : passHv c st = r := Option.some.inj h
      have hpcnn : ∀ a < c.A, 0 ≤ st.pc a := by
        rcases hpcold with hl | hr
        · exact hl
        · intro a ha
          have hcnt : negCount c st.pc = 0 := by rw [hc, hr]
          have hx0 : negCountOf c.A (fxX c st.pc) = 0 := by
            unfold negCount at hcnt
            omega
          have hnotneg := negCountOf_zero c.A (fxX c st.pc) hx0 a ha
          have hfx : 0 ≤ fxX c st.pc a := not_lt.mp hnotneg
          unfold fxX at hfx
          have := hpsii a ha
          linarith
      refine ⟨?_, passHv_01 c st h01, ?_⟩
      · intro a ha
        rw [passHv_pc]
        exact hpcnn a ha
      · intro a ha
        refine ⟨?_, ?_, ?_, ?_⟩
        · intro hneg
          rw [passHv_pc] at hneg
          rw [passHv_hvx]
          simp [hvStep, ha, hneg]
        · intro hneg
          rw [passHv_pc] at hneg
          rw [passHv_hvy]
          simp [hvStep, ha, hneg]
        · intro hneg
          rw [passHv_pc] at hneg
          rw [passHv_hvz]
          simp [hvStep, ha, hneg]
        · intro hvd hneg
          rw [passHv_pc] at hneg
          rw [passHv_hvt, if_pos hvd]
          simp [hvStep, ha, hneg]
    · rw [if_neg hc] at h
      apply ih (passNext c st) r h
      · exact passHv_01 c st h01
      · left
        intro a ha
        rw [passNext_pc]
        simp only
        rw [if_pos ha]
        exact recompVal_nonneg c _ _ _ _ a

/-- C8: with flux fixup enabled and nonnegative incoming x fluxes, once the
fixup loop finishes at a cell every angle below num_angles has nonnegative pc,
and the outgoing face fluxes psii, psij, psik computed as fx_hv times hv are
nonnegative, as is time_flux_out when vdelt is nonzero. -/
theorem c8_fixup_nonneg (c : FixupCfg) (pc0 : ℕ → ℚ) (fuel : ℕ)
    (st : FixupState) (hpsii : ∀ a < c.A, 0 ≤ c.psii a)
    (hrun : fixupLoop c fuel (initFixup pc0) = some st) :
    ∀ a < c.A, 0 ≤ st.pc a ∧ 0 ≤ psiiOut c st a ∧ 0 ≤ psijOut c st a ∧
      0 ≤ psikOut c st a ∧ (c.vdelt ≠ 0 → 0 ≤ tfoOut c st a) := by
  have h01 : Hv01 (initFixup pc0) := by
    intro a
    exact ⟨Or.inr rfl, Or.inr rfl, Or.inr rfl, Or.inr rfl⟩
  have hres := fixupLoop_some_props c hpsii fuel (initFixup pc0) st hrun h01
    (Or.inr rfl)
  obtain ⟨hpc, h01r, hflag⟩ := hres
  have hprod : ∀ fx hv : ℚ, (hv = 0 ∨ hv = 1) → (fx < 0 → hv = 0) →
      0 ≤ fx * hv := by
    intro fx hv h1 h2
    rcases h1 with h | h
    · rw [h, mul_zero]
    · rcases lt_or_le fx 0 with hlt | hle
      · rw [h2 hlt] at h
        norm_num at h
      · rw [h, mul_one]
        exact hle
  intro a ha
  refine ⟨hpc a ha, ?_, ?_, ?_, ?_⟩
  · show 0 ≤ fxX c st.pc a * st.hvx a
    exact hprod _ _ (h01r a).1 ((hflag a ha).1)
  · show 0 ≤ fxY c st.pc a * st.hvy a
    exact hprod _ _ (h01r a).2.1 ((hflag a ha).2.1)
  · show 0 ≤ fxZ c st.pc a * st.hvz a
    exact hprod _ _ (h01r a).2.2.1 ((hflag a ha).2.2.1)
  · intro hvd
    show 0 ≤ fxT c st.pc a * st.hvt a
    exact hprod _ _ (h01r a).2.2.2 ((hflag a ha).2.2.2 hvd)

/-- C8 witness: on the explicit one-angle all-zero inputs the fixup loop exits
on its first pass and all the guaranteed quantities evaluate to nonnegative
values. -/
theorem c8_fixup_nonneg_witness :
    (∀ a < fixupCfgW.A, 0 ≤ fixupCfgW.psii a) ∧
    (∀ a < fixupCfgW.A, 0 ≤ fixupStW.pc a ∧
      0 ≤ psiiOut fixupCfgW fixupStW a ∧ 0 ≤ psijOut fixupCfgW fixupStW a ∧
      0 ≤ psikOut fixupCfgW fixupStW a ∧
      (fixupCfgW.vdelt ≠ 0 → 0 ≤ tfoOut fixupCfgW fixupStW a)) := by
  have hrun : fixupLoop fixupCfgW 1 (initFixup fun _ => 0) = some fixupStW := by
    rw [show (1 : ℕ) = 0 + 1 from rfl, fixupLoop_succ, if_pos]
    · rfl
    · show negCount fixupCfgW (initFixup fun _ => 0).pc = 0
      norm_num [negCount, negCountOf, fxX, fxY, fxZ, fxT, fixupCfgW, initFixup]
  exact ⟨fun a _ => le_refl 0,
    c8_fixup_nonneg fixupCfgW (fun _ => 0) 1 fixupStW (fun a _ => le_refl 0)
      hrun⟩

/-- C2: on identical inputs (four angles, one moment, unit source, zero
incoming fluxes, unit weights, dinv one half, no fixup, no MMS, no time term)
the scalar cpu kernel folds the per-cell total 2 into flux, while the SSE and
AVX kernels fold 4: the vector kernels sum the unweighted angular source psi
instead of w times pc, so the three implementations do not produce equal
per-cell totals. -/
theorem c2_simd_totals_differ :
    (cpuCellNoFixup c2In 1).map CellOut.total = some 2 ∧
    (sseCellNoFixup c2In).total = 4 ∧
    (avxCellNoFixup c2In).total = 4 ∧
    (2 : ℚ) ≠ 4 := by
  refine ⟨?_, ?_, ?_, by norm_num⟩
  · norm_num [cpuCellNoFixup, cpuPsi, cpuMomentLoop, cpuPc, cpuTotal, c2In,
      Option.map_map, List.range_succ]
  · show sseTotal c2In = 4
    norm_num [sseTotal, ssePsi, c2In, List.range_succ]
  · show avxTotal c2In = 4
    norm_num [avxTotal, avxPsi, hadd4, c2In, List.range_succ]

/-- C9: in the no-fixup branch of the cpu sweep kernel, for every angle below
num_angles the outgoing face fluxes equal twice the cell-centred solution
minus the incoming value for each of the three faces, the outgoing time flux
is written with value twice pc minus time_flux_in exactly when vdelt is
nonzero, and nothing is written to time_flux_out when vdelt is zero. -/
theorem c9_no_fixup_outgoing (c : CellIn) (pc : ℕ → ℚ) :
    (∀ a < c.A, noFixupPsii c pc a = 2 * pc a - c.psii0 a ∧
      noFixupPsij c pc a = 2 * pc a - c.psij0 a ∧
      noFixupPsik c pc a = 2 * pc a - c.psik0 a) ∧
    (c.vdelt = 0 → noFixupTfo c pc = none) ∧
    (∀ tf : ℕ → ℚ, noFixupTfo c pc = some tf →
      c.vdelt ≠ 0 ∧ ∀ a < c.A, tf a = 2 * pc a - c.tfi a) := by
  refine ⟨?_, ?_, ?_⟩
  · intro a ha
    exact ⟨by simp [noFixupPsii, ha], by simp [noFixupPsij, ha],
      by simp [noFixupPsik, ha]⟩
  · intro h0
    simp [noFixupTfo, h0]
  · intro tf htf
    unfold noFixupTfo at htf
    by_cases hvd : c.vdelt ≠ 0
    · rw [if_pos hvd] at htf
      rcases Option.some.inj htf with rfl
      refine ⟨hvd, ?_⟩
      intro a ha
      simp [ha]
    · rw [if_neg hvd] at htf
      exact Option.noConfusion htf

/-- C9 witness: on the concrete cell inputs with pc constantly 1, angle 0 is
below the angle count and the three outgoing face fluxes evaluate as twice pc
minus the incoming values. -/
theorem c9_no_fixup_outgoing_witness :
    noFixupPsii c2In (fun _ => 1) 0 = 2 * (fun _ => (1 : ℚ)) 0 - c2In.psii0 0 ∧
    noFixupPsij c2In (fun _ => 1) 0 = 2 * (fun _ => (1 : ℚ)) 0 - c2In.psij0 0 ∧
    noFixupPsik c2In (fun _ => 1) 0 = 2 * (fun _ => (1 : ℚ)) 0 - c2In.psik0 0 :=
  (c9_no_fixup_outgoing c2In (fun _ => 1)).1 0 (by decide)

/-- C3 counterexample: a single cell whose previous flux is 0 (under the 1e-12
tolerance) and whose current flux is 2, with convergence_eps = 1/100 so that
epsi = 1, makes the implementation return false, while the claimed reading
(underflow cells get df = 0 and can never fail the test) returns true: in the
code df becomes the absolute value of flux over 1 minus 0, that is 2. -/
theorem c3_counterexample :
    testOuterConvergence true (1/100) 1 [((0, 0, 0) : Cell3)]
        (fun _ _ => 2) (fun _ _ => 0) = false ∧
    testOuterConvergenceClaimed true (1/100) 1 [((0, 0, 0) : Cell3)]
        (fun _ _ => 2) (fun _ _ => 0) = true := by
  have hdf : outerDf 2 0 = 2 := by norm_num [outerDf, tolr]
  have hdfc : outerDfClaimed 2 0 = 0 := by norm_num [outerDfClaimed, tolr]
  constructor
  · simp [testOuterConvergence, hdf]
  · simp [testOuterConvergenceClaimed, hdfc]

/-- C3 amended: the outer convergence test returns true exactly when the inner
iteration converged and no group and cell has df above epsi = 100 *
convergence_eps, where df is the absolute value of flux over flux_prev minus 1,
except that a cell with the magnitude of flux_prev below 1e-12 uses flux_prev =
1 and a subtracted constant of 0, so its df equals the absolute value of flux
and the cell fails the test whenever that exceeds epsi; when the inner did not
converge the test returns false without consulting any flux. -/
theorem c3_outer_convergence_amended (inner : Bool) (eps : ℚ) (G : ℕ)
    (cells : List Cell3) (flux0 flux0po : ℕ → Cell3 → ℚ) :
    (testOuterConvergence inner eps G cells flux0 flux0po = true ↔
      (inner = true ∧ ∀ g < G, ∀ p ∈ cells,
        outerDf (flux0 g p) (flux0po g p) ≤ 100 * eps)) ∧
    (inner = false → testOuterConvergence inner eps G cells flux0 flux0po = false) ∧
    (∀ f p0 : ℚ, outerDf f p0 = if |p0| < tolr then |f| else |f / p0 - 1|) := by
  refine ⟨?_, ?_, ?_⟩
  · cases inner with
    | false => simp [testOuterConvergence]
    | true =>
      simp [testOuterConvergence, List.all_eq_true, Bool.not_eq_true',
        decide_eq_false_iff_not, not_lt]
  · intro h
    subst h
    simp [testOuterConvergence]
  · intro f p0
    by_cases h : |p0| < tolr
    · simp [outerDf, h]
    · simp [outerDf, h]

/-- C3 amended witness: at a single cell with flux = flux_prev = 1 and eps = 1
the amended characterization applies and the test indeed returns true. -/
theorem c3_outer_convergence_amended_witness :
    testOuterConvergence true 1 1 [((0, 0, 0) : Cell3)]
        (fun _ _ => 1) (fun _ _ => 1) = true :=
  ((c3_outer_convergence_amended true 1 1 [((0, 0, 0) : Cell3)]
      (fun _ _ => 1) (fun _ _ => 1)).1).2
    ⟨rfl, by
      intro g hg p hp
      show outerDf 1 1 ≤ 100 * 1
      norm_num [outerDf, tolr]⟩

/-- C4 counterexample: a single cell with reference flux 0 (below the 1e-12
tolerance) and computed flux 5 gives df = 5, not 0: the returned triple is
(5, 5, 5), so the underflow cell raised the max component to 5 and contributed
5 to the sum component, contradicting the claim that it contributes nothing. -/
theorem c4_counterexample :
    mmsDf 5 0 = 5 ∧ ¬ mmsDf 5 0 = 0 ∧
    mmsCompare 1 [((0, 0, 0) : Cell3)] (fun _ _ => 5) (fun _ _ => 0) =
      ⟨((5 : ℚ) : WithBot ℚ), ((5 : ℚ) : WithTop ℚ), 5⟩ := by
  have h5 : mmsDf 5 0 = 5 := by norm_num [mmsDf, tolr]
  refine ⟨h5, by rw [h5]; norm_num, ?_⟩
  have hst : mmsCompare 1 [((0, 0, 0) : Cell3)] (fun _ _ => 5) (fun _ _ => 0) =
      mmsCompareStep ⟨⊥, ⊤, 0⟩ (mmsDf 5 0) := by
    simp [mmsCompare, List.range_succ]
  rw [hst, h5]
  simp [mmsCompareStep]

/-- C4 amended: a cell whose reference flux is below 1e-12 has its reference
substituted by 1.0 but the subtracted constant zeroed instead of the error, so
its error value df equals the absolute value of the computed flux; the cell
contributes that amount to the sum component and raises the max component
whenever it exceeds the running max. -/
theorem c4_mms_underflow_amended :
    (∀ f r : ℚ, r < tolr → mmsDf f r = |f|) ∧
    (∀ (acc : CompareAcc) (d : ℚ),
      (mmsCompareStep acc d).csum = acc.csum + d) ∧
    (∀ (acc : CompareAcc) (d : ℚ), acc.cmax < (d : WithBot ℚ) →
      (mmsCompareStep acc d).cmax = (d : WithBot ℚ)) := by
  refine ⟨?_, ?_, ?_⟩
  · intro f r h
    simp [mmsDf, h]
  · intro acc d
    rfl
  · intro acc d h
    simp [mmsCompareStep, h]

/-- C4 amended witness: at flux 5 and reference 0 the amended claim applies and
df evaluates to 5, which is folded into sum and max. -/
theorem c4_mms_underflow_amended_witness :
    mmsDf 5 0 = |(5 : ℚ)| ∧
    (mmsCompareStep ⟨⊥, ⊤, 0⟩ 5).csum = 0 + 5 ∧
    (mmsCompareStep ⟨⊥, ⊤, 0⟩ 5).cmax = ((5 : ℚ) : WithBot ℚ) :=
  ⟨c4_mms_underflow_amended.1 5 0 (by norm_num [tolr]),
   c4_mms_underflow_amended.2.1 ⟨⊥, ⊤, 0⟩ 5,
   c4_mms_underflow_amended.2.2 ⟨⊥, ⊤, 0⟩ 5 (WithBot.bot_lt_coe _)⟩

/-- Helper: the subtraction gcd returns when given positive arguments and
enough fuel. -/
lemma gcdSnap_isSome :
    ∀ (fuel a b : ℕ), 0 < a → 0 < b → a + b ≤ fuel →
      (gcdSnap fuel a b).isSome = true := by
  intro fuel
  induction fuel with
  | zero => intro a b ha hb hf; omega
  | succ n ih =>
    intro a b ha hb hf
    simp only [gcdSnap]
    by_cases h1 : a < b
    · rw [if_pos h1]
      exact ih a (b - a) ha (by omega) (by omega)
    · rw [if_neg h1]
      by_cases h2 : b < a
      · rw [if_pos h2]
        exact ih (a - b) b (by omega) hb (by omega)
      · rw [if_neg h2]
        rfl

/-- Helper: whatever the subtraction gcd returns divides both arguments. -/
lemma gcdSnap_dvd :
    ∀ (fuel a b g : ℕ), gcdSnap fuel a b = some g → g ∣ a ∧ g ∣ b := by
  intro fuel
  induction fuel with
  | zero => intro a b g h; simp [gcdSnap] at h
  | succ n ih =>
    intro a b g h
    simp only [gcdSnap] at h
    by_cases h1 : a < b
    · rw [if_pos h1] at h
      obtain ⟨hda, hdb⟩ := ih a (b - a) g h
      refine ⟨hda, ?_⟩
      have hsum : g ∣ (b - a) + a := Dvd.dvd.add hdb hda
      rwa [Nat.sub_add_cancel (le_of_lt h1)] at hsum
    · rw [if_neg h1] at h
      by_cases h2 : b < a
      · rw [if_pos h2] at h
        obtain ⟨hda, hdb⟩ := ih (a - b) b g h
        refine ⟨?_, hdb⟩
        have hsum : g ∣ (a - b) + b := Dvd.dvd.add hda hdb
        rwa [Nat.sub_add_cancel (le_of_lt h2)] at hsum
      · rw [if_neg h2] at h
        obtain rfl : a = g := Option.some.inj h
        have hab : a = b := le_antisymm (not_lt.mp h2) (not_lt.mp h1)
        exact ⟨dvd_refl a, hab ▸ dvd_refl a⟩

/-- Helper: the ceiling block count times a divisor width recovers the
extent. -/
lemma blocks_mul (nx strip : ℕ) (hs : 0 < strip) (hd : strip ∣ nx) :
    ((nx + strip - 1) / strip) * strip = nx := by
  obtain ⟨q, rfl⟩ := hd
  rw [show strip * q + strip - 1 = strip * q + (strip - 1) from by omega,
    Nat.mul_add_div hs, Nat.div_eq_of_lt (by omega)]
  ring

/-- Helper: a strip entry that was filled reads back its value. -/
lemma fillRange_lookup_in :
    ∀ (s : ℕ) (f : ℕ → ℚ) (base : ℕ) (v : ℕ → ℚ) (i : ℕ), i < s →
      fillRange f base s v (base + i) = v i := by
  intro s
  induction s with
  | zero => intro f base v i hi; omega
  | succ n ih =>
    intro f base v i hi
    unfold fillRange
    rw [List.range_succ, List.foldl_append, List.foldl_cons, List.foldl_nil]
    show flatWrite (fillRange f base n v) (base + n) (v n) (base + i) = v i
    by_cases h : i = n
    · subst h
      simp [flatWrite]
    · unfold flatWrite
      rw [if_neg (by omega)]
      exact ih f base v i (by omega)

/-- Helper: a strip entry outside the filled window is untouched. -/
lemma fillRange_lookup_out :
    ∀ (s : ℕ) (f : ℕ → ℚ) (base : ℕ) (v : ℕ → ℚ) (idx : ℕ),
      (∀ i < s, idx ≠ base + i) → fillRange f base s v idx = f idx := by
  intro s
  induction s with
  | zero => intro f base v idx h; rfl
  | succ n ih =>
    intro f base v idx h
    unfold fillRange
    rw [List.range_succ, List.foldl_append, List.foldl_cons, List.foldl_nil]
    show flatWrite (fillRange f base n v) (base + n) (v n) idx = f idx
    unfold flatWrite
    rw [if_neg (h n (by omega))]
    exact ih f base v idx (fun i hi => h i (by omega))

/-- Helper: the group-major strip load reads back the flux of the right
group and cell. -/
lemma stripLoad_aux :
    ∀ (n : ℕ) (f : ℕ → ℚ) (strip : ℕ) (V : ℕ → ℕ → ℚ),
      ∀ g < n, ∀ i < strip,
        ((List.range n).foldl
          (fun acc g => fillRange acc (g * strip) strip (V g)) f)
          (g * strip + i) = V g i := by
  intro n
  induction n with
  | zero => intro f strip V g hg; omega
  | succ m ih =>
    intro f strip V g hg i hi
    rw [List.range_succ, List.foldl_append, List.foldl_cons, List.foldl_nil]
    by_cases hgm : g = m
    · subst hgm
      exact fillRange_lookup_in strip _ (g * strip) (V g) i hi
    · rw [fillRange_lookup_out strip _ (m * strip) (V m) (g * strip + i)
        (by
          intro j hj
          have hglt : g < m := by omega
          have h1 : g * strip + i < (g + 1) * strip := by
            rw [add_mul, one_mul]
            omega
          have h2 : (g + 1) * strip ≤ m * strip :=
            Nat.mul_le_mul_right strip (by omega)
          omega)]
      exact ih f strip V g (by omega) i hi

/-- Helper: specialisation of the strip load lookup to loadFluxStrip. -/
lemma loadFluxStrip_lookup (inp : OuterSrc) (strip x y z : ℕ) :
    ∀ g < inp.G, ∀ i < strip,
      loadFluxStrip inp strip x y z (g * strip + i) =
        inp.flux0 g (x + i) y z := by
  intro g hg i hi
  exact stripLoad_aux inp.G (fun _ => 0) strip
    (fun g i => inp.flux0 g (x + i) y z) g hg i hi

/-- Helper: a fold that skips one index equals the filtered sum. -/
lemma foldl_skip (n g1 : ℕ) (F : ℕ → ℚ) (init : ℚ) :
    (List.range n).foldl (fun q g2 => if g1 = g2 then q else q + F g2) init =
      init + ∑ g2 ∈ (Finset.range n).filter (fun g2 => g1 ≠ g2), F g2 := by
  induction n with
  | zero => simp
  | succ m ih =>
    rw [List.range_succ, List.foldl_append, List.foldl_cons, List.foldl_nil,
      ih, Finset.range_succ, Finset.filter_insert]
    by_cases h : g1 = m
    · subst h
      rw [if_pos rfl, if_neg (by simp)]
    · rw [if_neg h, if_pos h,
        Finset.sum_insert (by simp [Finset.mem_filter])]
      ring

/-- Helper: the strip-loop cell value equals the claimed per-cell value. -/
lemma qo0Val_spec (inp : OuterSrc) (strip x y z g1 i : ℕ) (hi : i < strip) :
    qo0Val inp (loadFluxStrip inp strip x y z) strip g1 (x + i) i y z =
      qo0Spec inp g1 (x + i) y z := by
  unfold qo0Val qo0Spec
  rw [foldl_skip inp.G g1
    (fun g2 => inp.slgg g1 (inp.matf (x + i) y z) g2 0 *
      loadFluxStrip inp strip x y z (g2 * strip + i))
    (inp.qi0 g1 (x + i) y z)]
  congr 1
  apply Finset.sum_congr rfl
  intro g2 hg2
  rw [loadFluxStrip_lookup inp strip x y z g2
    (Finset.mem_range.mp (Finset.mem_filter.mp hg2).1) i hi]

/-- Helper: within a strip, the last write to a cell read back. -/
lemma cellWrites_lookup_in :
    ∀ (s : ℕ) (acc : ℕ → ℕ → ℕ → ℕ → ℚ) (g1 x y z : ℕ) (v : ℕ → ℚ) (i : ℕ),
      i < s →
      ((List.range s).foldl
        (fun a i => qoWrite a g1 (x + i) y z (v i)) acc) g1 (x + i) y z =
        v i := by
  intro s
  induction s with
  | zero => intro acc g1 x y z v i hi; omega
  | succ n ih =>
    intro acc g1 x y z v i hi
    rw [List.range_succ, List.foldl_append, List.foldl_cons, List.foldl_nil]
    by_cases h : i = n
    · subst h
      simp [qoWrite]
    · show qoWrite _ g1 (x + n) y z (v n) g1 (x + i) y z = v i
      unfold qoWrite
      rw [if_neg (by
        intro hcon
        exact absurd hcon.2.1 (by omega))]
      exact ih acc g1 x y z v i (by omega)

/-- Helper: a key not written by a strip row is untouched. -/
lemma cellWrites_lookup_out :
    ∀ (s : ℕ) (acc : ℕ → ℕ → ℕ → ℕ → ℚ) (g1 x y z : ℕ) (v : ℕ → ℚ)
      (g2 x2 y2 z2 : ℕ),
      (∀ i < s, ¬(g2 = g1 ∧ x2 = x + i ∧ y2 = y ∧ z2 = z)) →
      ((List.range s).foldl
        (fun a i => qoWrite a g1 (x + i) y z (v i)) acc) g2 x2 y2 z2 =
        acc g2 x2 y2 z2 := by
  intro s
  induction s with
  | zero => intro acc g1 x y z v g2 x2 y2 z2 h; rfl
  | succ n ih =>
    intro acc g1 x y z v g2 x2 y2 z2 h
    rw [List.range_succ, List.foldl_append, List.foldl_cons, List.foldl_nil]
    show qoWrite _ g1 (x + n) y z (v n) g2 x2 y2 z2 = acc g2 x2 y2 z2
    unfold qoWrite
    rw [if_neg (h n (by omega))]
    exact ih acc g1 x y z v g2 x2 y2 z2 (fun i hi => h i (by omega))

/-- Helper: within a strip body, the write of group g1 and offset i read
back. -/
lemma gWrites_lookup_in :
    ∀ (n : ℕ) (acc : ℕ → ℕ → ℕ → ℕ → ℚ) (strip x y z : ℕ) (V : ℕ → ℕ → ℚ),
      ∀ g1 < n, ∀ i < strip,
        ((List.range n).foldl
          (fun ag g =>
            (List.range strip).foldl
              (fun ai i => qoWrite ai g (x + i) y z (V g i)) ag)
          acc) g1 (x + i) y z = V g1 i := by
  intro n
  induction n with
  | zero => intro acc strip x y z V g1 hg; omega
  | succ m ih =>
    intro acc strip x y z V g1 hg i hi
    rw [List.range_succ, List.foldl_append, List.foldl_cons, List.foldl_nil]
    by_cases hgm : g1 = m
    · subst hgm
      exact cellWrites_lookup_in strip _ g1 x y z (V g1) i hi
    · rw [cellWrites_lookup_out strip _ m x y z (V m) g1 (x + i) y z
        (by
          intro j hj hcon
          exact hgm hcon.1)]
      exact ih acc strip x y z V g1 (by omega) i hi

/-- Helper: a key not written by any group of a strip body is untouched. -/
lemma gWrites_lookup_out :
    ∀ (n : ℕ) (acc : ℕ → ℕ → ℕ → ℕ → ℚ) (strip x y z : ℕ) (V : ℕ → ℕ → ℚ)
      (g2 x2 y2 z2 : ℕ),
      (∀ g1 < n, ∀ i < strip, ¬(g2 = g1 ∧ x2 = x + i ∧ y2 = y ∧ z2 = z)) →
      ((List.range n).foldl
        (fun ag g =>
          (List.range strip).foldl
            (fun ai i => qoWrite ai g (x + i) y z (V g i)) ag)
        acc) g2 x2 y2 z2 = acc g2 x2 y2 z2 := by
  intro n
  induction n with
  | zero => intro acc strip x y z V g2 x2 y2 z2 h; rfl
  | succ m ih =>
    intro acc strip x y z V g2 x2 y2 z2 h
    rw [List.range_succ, List.foldl_append, List.foldl_cons, List.foldl_nil]
    rw [cellWrites_lookup_out strip _ m x y z (V m) g2 x2 y2 z2
      (fun i hi => h m (by omega) i hi)]
    exact ih acc strip x y z V g2 x2 y2 z2
      (fun g1 hg1 i hi => h g1 (by omega) i hi)

/-- Helper: a strip body leaves every cell of another y or z row alone. -/
lemma stripBody_out_yz (inp : OuterSrc) (strip y z x : ℕ)
    (acc : ℕ → ℕ → ℕ → ℕ → ℚ) (g2 x2 y2 z2 : ℕ) (h : y2 ≠ y ∨ z2 ≠ z) :
    stripBody inp strip y z x acc g2 x2 y2 z2 = acc g2 x2 y2 z2 := by
  unfold stripBody
  apply gWrites_lookup_out
  intro g1 hg1 i hi hcon
  rcases h with h | h
  · exact h hcon.2.2.1
  · exact h hcon.2.2.2

/-- Helper: the blocked x sweep leaves every cell of another y or z row
alone. -/
lemma xBlocks_out_yz (inp : OuterSrc) (strip y z : ℕ) :
    ∀ (B : ℕ) (acc : ℕ → ℕ → ℕ → ℕ → ℚ) (g2 x2 y2 z2 : ℕ),
      y2 ≠ y ∨ z2 ≠ z →
      xBlocks inp strip y z B acc g2 x2 y2 z2 = acc g2 x2 y2 z2 := by
  intro B
  induction B with
  | zero => intro acc g2 x2 y2 z2 h; rfl
  | succ m ih =>
    intro acc g2 x2 y2 z2 h
    unfold xBlocks
    rw [List.range_succ, List.foldl_append, List.foldl_cons, List.foldl_nil]
    rw [stripBody_out_yz inp strip y z (m * strip) _ g2 x2 y2 z2 h]
    exact ih acc g2 x2 y2 z2 h

/-- Helper: within its own y and z row, the blocked x sweep writes every cell
below B * strip with the claimed value. -/
lemma xBlocks_lookup (inp : OuterSrc) (strip y z : ℕ) :
    ∀ (B : ℕ) (acc : ℕ → ℕ → ℕ → ℕ → ℚ) (g1 x0 : ℕ),
      g1 < inp.G → x0 < B * strip →
      xBlocks inp strip y z B acc g1 x0 y z = qo0Spec inp g1 x0 y z := by
  intro B
  induction B with
  | zero => intro acc g1 x0 hg hx; omega
  | succ m ih =>
    intro acc g1 x0 hg hx
    unfold xBlocks
    rw [List.range_succ, List.foldl_append, List.foldl_cons, List.foldl_nil]
    show stripBody inp strip y z (m * strip) _ g1 x0 y z = _
    by_cases hin : m * strip ≤ x0
    · have hi : x0 - m * strip < strip := by
        have hms : (m + 1) * strip = m * strip + strip := by ring
        omega
      have hx0 : x0 = m * strip + (x0 - m * strip) := by omega
      rw [hx0]
      unfold stripBody
      rw [gWrites_lookup_in inp.G _ strip (m * strip) y z
        (fun g i => qo0Val inp (loadFluxStrip inp strip (m * strip) y z)
          strip g (m * strip + i) i y z) g1 hg (x0 - m * strip) hi]
      exact qo0Val_spec inp strip (m * strip) y z g1 (x0 - m * strip) hi
    · unfold stripBody
      rw [gWrites_lookup_out inp.G _ strip (m * strip) y z
        (fun g i => qo0Val inp (loadFluxStrip inp strip (m * strip) y z)
          strip g (m * strip + i) i y z) g1 x0 y z
        (by
          intro g hgn i hi hcon
          have hx0i : x0 = m * strip + i := hcon.2.1
          omega)]
      exact ih acc g1 x0 hg (by omega)

/-- Helper: the y sweep leaves every cell of another z plane alone. -/
lemma yFold_out_z (inp : OuterSrc) (strip B z : ℕ) :
    ∀ (n : ℕ) (acc : ℕ → ℕ → ℕ → ℕ → ℚ) (g2 x2 y2 z2 : ℕ), z2 ≠ z →
      ((List.range n).foldl
        (fun a y => xBlocks inp strip y z B a) acc) g2 x2 y2 z2 =
        acc g2 x2 y2 z2 := by
  intro n
  induction n with
  | zero => intro acc g2 x2 y2 z2 h; rfl
  | succ m ih =>
    intro acc g2 x2 y2 z2 h
    rw [List.range_succ, List.foldl_append, List.foldl_cons, List.foldl_nil]
    rw [xBlocks_out_yz inp strip m z B _ g2 x2 y2 z2 (Or.inr h)]
    exact ih acc g2 x2 y2 z2 h

/-- Helper: the y sweep of one z plane writes every in-range cell of that
plane with the claimed value. -/
lemma yFold_lookup (inp : OuterSrc) (strip B z : ℕ) :
    ∀ (n : ℕ) (acc : ℕ → ℕ → ℕ → ℕ → ℚ) (g1 x0 y0 : ℕ),
      g1 < inp.G → x0 < B * strip → y0 < n →
      ((List.range n).foldl
        (fun a y => xBlocks inp strip y z B a) acc) g1 x0 y0 z =
        qo0Spec inp g1 x0 y0 z := by
  intro n
  induction n with
  | zero => intro acc g1 x0 y0 hg hx hy; omega
  | succ m ih =>
    intro acc g1 x0 y0 hg hx hy
    rw [List.range_succ, List.foldl_append, List.foldl_cons, List.foldl_nil]
    by_cases hym : y0 = m
    · subst hym
      exact xBlocks_lookup inp strip y0 z B _ g1 x0 hg hx
    · rw [xBlocks_out_yz inp strip m z B _ g1 x0 y0 z (Or.inl hym)]
      exact ih acc g1 x0 y0 hg hx (by omega)

/-- Helper: the z sweep writes every in-range cell with the claimed value. -/
lemma zFold_lookup (inp : OuterSrc) (strip B : ℕ) :
    ∀ (n : ℕ) (acc : ℕ → ℕ → ℕ → ℕ → ℚ) (g1 x0 y0 z0 : ℕ),
      g1 < inp.G → x0 < B * strip → y0 < inp.ny → z0 < n →
      ((List.range n).foldl
        (fun accz z =>
          (List.range inp.ny).foldl
            (fun accy y => xBlocks inp strip y z B accy) accz)
        acc) g1 x0 y0 z0 = qo0Spec inp g1 x0 y0 z0 := by
  intro n
  induction n with
  | zero => intro acc g1 x0 y0 z0 hg hx hy hz; omega
  | succ m ih =>
    intro acc g1 x0 y0 z0 hg hx hy hz
    rw [List.range_succ, List.foldl_append, List.foldl_cons, List.foldl_nil]
    by_cases hzm : z0 = m
    · subst hzm
      exact yFold_lookup inp strip B z0 inp.ny _ g1 x0 y0 hg hx hy
    · rw [yFold_out_z inp strip B m inp.ny _ g1 x0 y0 z0 hzm]
      exact ih acc g1 x0 y0 z0 hg hx hy (by omega)

/-- C5: for a chunk with positive x extent, CalcOuterSource writes, for every
group g1 and every in-range cell, qo0 of g1 at the cell as qi plus the sum
over all groups g2 different from g1 of slgg g1 (mat cell) g2 0 times flux0 of
g2 at the cell, the diagonal excluded; the cache-blocked traversal in x strips
of width gcd(nx, 32) terminates, covers every in-range cell and leaves this
per-cell value independent of the initial contents of the output field. -/
theorem c5_outer_source (inp : OuterSrc) (qinit : ℕ → ℕ → ℕ → ℕ → ℚ)
    (hnx : 0 < inp.nx) :
    ∃ qo0, calcOuterSource inp qinit = some qo0 ∧
      ∀ g1 x y z, g1 < inp.G → x < inp.nx → y < inp.ny → z < inp.nz →
        qo0 g1 x y z = qo0Spec inp g1 x y z := by
  have hg := gcdSnap_isSome (inp.nx + 32) inp.nx 32 hnx (by norm_num)
    (le_refl _)
  obtain ⟨strip, hstrip⟩ := Option.isSome_iff_exists.mp hg
  obtain ⟨hdvd, hdvd32⟩ := gcdSnap_dvd (inp.nx + 32) inp.nx 32 strip hstrip
  have hs : 0 < strip := by
    rcases Nat.eq_zero_or_pos strip with h0 | h
    · subst h0
      rw [zero_dvd_iff] at hdvd
      omega
    · exact h
  unfold calcOuterSource
  rw [hstrip, Option.map_some']
  refine ⟨_, rfl, ?_⟩
  intro g1 x y z hg1 hx hy hz
  have hB : ((inp.nx + strip - 1) / strip) * strip = inp.nx :=
    blocks_mul inp.nx strip hs hdvd
  exact zFold_lookup inp strip ((inp.nx + strip - 1) / strip) inp.nz qinit
    g1 x y z hg1 (by omega) hy hz

/-- C5 witness: on the one-group one-cell inputs the build returns and the
single cell holds qi plus an empty scattering sum, which evaluates to 3. -/
theorem c5_outer_source_witness :
    (0 < outerSrcW.nx) ∧
    qo0Spec outerSrcW 0 0 0 0 = 3 ∧
    (∃ qo0, calcOuterSource outerSrcW (fun _ _ _ _ => 0) = some qo0 ∧
      ∀ g1 x y z, g1 < outerSrcW.G → x < outerSrcW.nx → y < outerSrcW.ny →
        z < outerSrcW.nz → qo0 g1 x y z = qo0Spec outerSrcW g1 x y z) :=
  ⟨by norm_num [outerSrcW],
   by
    show qo0Spec outerSrcW 0 0 0 0 = 3
    simp [qo0Spec, outerSrcW, Finset.filter_eq_empty_iff],
   c5_outer_source outerSrcW (fun _ _ _ _ => 0) (by norm_num [outerSrcW])⟩

end SnapSpec
